import Mathlib

/-!
# Verification of the docsheep title-extraction core (`quickstart.go`)

A shallow embedding of the title-extraction-and-rotation-retry core of the
repository: the hOCR word parsing, word scoring, title synthesis and the
rotation retry loop of `ocrImage` and `main` in `src/quickstart.go`.

Modelling conventions:
* Go `string` is modelled as Lean `String`; where Go iterates over runes
  (`for _, r := range s`) we use `String.toList`.  Go `len` on a string counts
  UTF-8 bytes; that is modelled by `goStrLen`.
* Go `int` is modelled as `Int` (the repository's values are tiny, so 64-bit
  overflow is unreachable and not modelled).
* Go `float64` is modelled as `ℚ`.  The only float arithmetic in the core is
  `float64(sum)/float64(len)` of small integers and the comparison `> 70`;
  a double-rounding error there is far below `1/len`, so the comparison with
  70 coincides with the exact rational one except when the exact value is 70,
  where both sides agree as well.
* `log.Fatal` and runtime panics (out-of-range indexing) abort the whole
  process; both are modelled by `Option`/`none` results.
-/

set_option maxRecDepth 16000

namespace Docsheep

/-! ## Go string primitives used by `ocrImage` -/

/-- Go `strings.Split(s, sep)` for a one-character separator: the pieces of
`s` between occurrences of `sep`; the empty string yields `[[]]`, matching
`strings.Split("", sep) = [""]`. -/
def splitChar (sep : Char) : List Char → List (List Char)
  | [] => [[]]
  | c :: cs =>
    match splitChar sep cs with
    | [] => if c = sep then [[], []] else [[c]]
    | p :: ps => if c = sep then [] :: p :: ps else (c :: p) :: ps

/-- Go `strings.SplitN(s, " ", 2)` as used on a property: `some (a, b)` when
`s = a ++ " " ++ b` with `a` space-free, `none` when `s` has no space at all
(in which case the Go code's `nameValue[1]` access panics). -/
def splitFirstSpace : List Char → Option (List Char × List Char)
  | [] => none
  | c :: cs =>
    if c = ' ' then some ([], cs)
    else
      match splitFirstSpace cs with
      | none => none
      | some (a, b) => some (c :: a, b)

/-- Go `strings.TrimLeft(s, " ")`. -/
def trimLeftSpaces (s : List Char) : List Char :=
  s.dropWhile (fun c => c == ' ')

/-- Value of a decimal digit character. -/
def digitVal (c : Char) : Nat := c.toNat - '0'.toNat

/-- Numeric value of a list of decimal digit characters. -/
def digitsVal (l : List Char) : Nat :=
  l.foldl (fun acc c => acc * 10 + digitVal c) 0

/-- Go `v, _ := strconv.Atoi(s)`: the parsed integer, or `0` when `s` is not a
well-formed optionally-signed decimal numeral (the code discards the error, and
`strconv.Atoi` returns value `0` alongside a syntax error).  64-bit range
clamping is not modelled; the repository's numerals are small. -/
def atoiZ (s : List Char) : Int :=
  match s with
  | [] => 0
  | '+' :: ds => if !ds.isEmpty && ds.all Char.isDigit then (digitsVal ds : Int) else 0
  | '-' :: ds => if !ds.isEmpty && ds.all Char.isDigit then -(digitsVal ds : Int) else 0
  | ds => if ds.all Char.isDigit then (digitsVal ds : Int) else 0

/-- Models `unicode.IsLetter(c) || unicode.IsDigit(c)` from the word loop of
`ocrImage`.  Faithful on the Basic Latin and Latin-1 Supplement ranges, which
cover the repository's German/English OCR text and its stoplist; code points
above U+00FF are conservatively mapped to `false`. -/
def isLetterOrDigit (c : Char) : Bool :=
  c.isAlpha || c.isDigit ||
    c.toNat == 0xAA || c.toNat == 0xB5 || c.toNat == 0xBA ||
    (decide (0xC0 ≤ c.toNat) && decide (c.toNat ≤ 0xFF) &&
      !(c.toNat == 0xD7) && !(c.toNat == 0xF7))

/-- UTF-8 byte length of one code point. -/
def runeUtf8Len (c : Char) : Nat :=
  if c.toNat < 0x80 then 1
  else if c.toNat < 0x800 then 2
  else if c.toNat < 0x10000 then 3
  else 4

/-- Go `len(s)` on a string: the byte length of its UTF-8 encoding. -/
def goStrLen (s : String) : Nat :=
  (s.toList.map runeUtf8Len).sum

/-! ## Data model: `Word` (type `Word` of quickstart.go) -/

/-- The `Word` struct of quickstart.go.  `props` is the word's parsed
`title`-attribute property map; Go's `map[string]string` is modelled as the
association list of parsed `(name, value)` pairs, looked up last-write-wins
(`lookupProp`). -/
structure Word where
  text : String
  fontSize : Int
  confidence : Int
  isStrong : Bool
  isEm : Bool
  height : Int
  weight : Int
  props : List (List Char × List Char)
deriving DecidableEq

/-- One `.ocrx_word` element of the hOCR markup as `ocrImage` consumes it:
its `title` attribute (`s.AttrOr("title", "")`), whether a `strong` / `em`
element is nested inside it, and its text content `s.Text()`. -/
structure RawWord where
  titleAttr : String
  hasStrong : Bool
  hasEm : Bool
  text : String
deriving DecidableEq

/-! ## Markup parsing (lines 159-184 of quickstart.go) -/

/-- One semicolon-separated property: trim leading spaces, split on the first
space into name and value.  `none` models the `nameValue[1]` index-out-of-range
panic when the property contains no space. -/
def parseProp (prop : List Char) : Option (List Char × List Char) :=
  splitFirstSpace (trimLeftSpaces prop)

/-- The property map built from a word's `title` attribute: split on `;`, then
parse each property.  `none` models the panic on the first valueless
property. -/
def parseProps (attr : List Char) : Option (List (List Char × List Char)) :=
  (splitChar ';' attr).mapM parseProp

/-- Go map lookup `props[key]` with last-write-wins insertion semantics; a
missing key yields the empty string, as in Go. -/
def lookupProp (props : List (List Char × List Char)) (key : List Char) : List Char :=
  match props.reverse.find? (fun p => p.1 == key) with
  | some p => p.2
  | none => []

/-- The fixed word stoplist of `ocrImage` (line 156), split on spaces exactly
as the Go code does (via `splitChar`, this file's model of `strings.Split`).
The string reproduces the source bytes, including the mojibake
`HÃ¶henring`. -/
def wordStoplist : List String :=
  (splitChar ' ' ("Mister Herr Frau 8052 8802 Artem Natalia Malyshev Malyshew Malysheva Weinbergstrasse 23 HÃ¶henring Schaffhauserstrasse 547").toList).map String.mk

/-- The weight computation of lines 170-182: `weight := fontSize * 10`, minus
50 when `height > 1400`, minus 100 when the word's text is in the stoplist.
The emphasis adjustment of the source is commented out there; `isStrong`,
`isEm` and `confidence` are in scope at the computation site but unread. -/
def scoreWeight (text : String) (fontSize confidence : Int) (isStrong isEm : Bool)
    (height : Int) : Int :=
  let weight := fontSize * 10
  let weight := if 1400 < height then weight - 50 else weight
  let weight := if wordStoplist.contains text then weight - 100 else weight
  weight

/-- Parsing one `.ocrx_word` element (lines 160-183): parse the property map
(`none` = panic on a valueless property), read `x_fsize` and `x_wconf` with
`strconv.Atoi` defaulting to 0, take the second space-separated component of
`bbox` as `height` (`none` = the `[1]` index panic when `bbox` is missing or
has no space), compute the weight, and build the `Word`. -/
def parseWord (raw : RawWord) : Option Word :=
  match parseProps raw.titleAttr.toList with
  | none => none
  | some ps =>
    let fontSize := atoiZ (lookupProp ps ("x_fsize".toList))
    let confidence := atoiZ (lookupProp ps ("x_wconf".toList))
    match (splitChar ' ' (lookupProp ps ("bbox".toList)))[1]? with
    | none => none
    | some second =>
      let height := atoiZ second
      let weight := scoreWeight raw.text fontSize confidence raw.hasStrong raw.hasEm height
      some ⟨raw.text, fontSize, confidence, raw.hasStrong, raw.hasEm, height, weight, ps⟩

/-- The `.Each` loop over the `#page_1 .ocrx_word` selection: parse every word
in document order; the first panic aborts the whole process (`none`). -/
def parseWords (raws : List RawWord) : Option (List Word) :=
  raws.mapM parseWord

/-! ## Sorting (`sort.Stable(sort.Reverse(ByWeight(words)))`, line 185) -/

/-- Insert `w` into a weight-descending list, after every element of strictly
greater weight and before the first element of smaller-or-equal weight.  Since
`sortWords` inserts earlier words into the sorted tail of later words, a tie
keeps the earlier word first — the stable-sort semantics of `sort.Stable`
under the reversed `ByWeight` ordering. -/
def insertByWeight (w : Word) : List Word → List Word
  | [] => [w]
  | x :: xs => if w.weight < x.weight then x :: insertByWeight w xs else w :: x :: xs

/-- Stable sort by weight, descending.  `sort.Stable` output is uniquely
determined by the ordering plus stability, so any stable sorting algorithm is
an exact model of line 185. -/
def sortWords : List Word → List Word
  | [] => []
  | w :: ws => insertByWeight w (sortWords ws)

/-! ## Title synthesis (lines 192-213) -/

/-- The confidence samples a word contributes: one copy of its confidence per
letter-or-digit character of its text (the inner `range word.text` loop). -/
def wordSamples (w : Word) : List Int :=
  (w.text.toList.filter isLetterOrDigit).map (fun _ => w.confidence)

/-- `avg` of quickstart.go (lines 123-132): 0 on the empty list, otherwise
sum over length. -/
def avg (l : List Int) : ℚ :=
  if l = [] then 0 else (l.sum : ℚ) / (l.length : ℚ)

/-- The word walk of lines 194-210: accumulate one confidence sample per
letter-or-digit character, append `text ++ " "` to the title when the word has
at least one such character and `confidence > 70`, and break as soon as the
title's byte length exceeds 80. -/
def synthLoop : List Word → String → List Int → String × List Int
  | [], title, confs => (title, confs)
  | w :: ws, title, confs =>
    let confs2 := confs ++ wordSamples w
    let title2 :=
      if 0 < (w.text.toList.filter isLetterOrDigit).length ∧ 70 < w.confidence
      then title ++ w.text ++ " " else title
    if 80 < goStrLen title2 then (title2, confs2) else synthLoop ws title2 confs2

/-- The title returned by `ocrImage` for a parsed word list: run the walk over
the weight-sorted words starting from the empty title. -/
def ocrTitle (ws : List Word) : String :=
  (synthLoop (sortWords ws) "" []).1

/-- The confidence score returned by `ocrImage`: `avg` of the collected
samples. -/
def ocrConf (ws : List Word) : ℚ :=
  avg (synthLoop (sortWords ws) "" []).2

/-! ## Rotation retry controller (lines 300-325) -/

/-- One rotation candidate's Pipeline Result as the retry loop consumes it:
its angle, the synthesized title `titleR`, the confidence score, and the
output prefix `outputPrefixR`. -/
structure Candidate where
  angle : Int
  title : String
  conf : ℚ
  outPfx : String
deriving DecidableEq

/-- The retry loop of lines 300-325 over precomputed Pipeline Results, with
state `(title, outputPrefix)`: a candidate becomes the provisional best when
it is good enough (`conf > 70`) or the current best title is empty, and the
loop breaks on a good-enough candidate.  Also returns how many candidates were
evaluated. -/
def runController : List Candidate → String × String → (String × String) × Nat
  | [], st => (st, 0)
  | c :: rest, st =>
    let st2 := if 70 < c.conf ∨ st.1 = "" then (c.title, c.outPfx) else st
    if 70 < c.conf then (st2, 1)
    else
      let r := runController rest st2
      (r.1, r.2 + 1)

/-- A full controller run from the initial state (`var title, outputPrefix
string` declares both empty). -/
def controllerRun (cs : List Candidate) : (String × String) × Nat :=
  runController cs ("", "")

/-- The retry loop driving the real pipeline: each candidate is a word-element
list (the `#page_1 .ocrx_word` selection of its hOCR output; an absent
`#page_1` scope gives the empty selection) together with its output prefix.
A parse panic in `ocrImage` aborts the whole run (`none`); otherwise the
candidate's `(title, confidence)` feeds the update-and-break rule of lines
315-324. -/
def runPipeline : List (List RawWord × String) → String × String → Option (String × String)
  | [], st => some st
  | cand :: rest, st =>
    match parseWords cand.1 with
    | none => none
    | some ws =>
      let titleR := ocrTitle ws
      let conf := ocrConf ws
      let st2 := if 70 < conf ∨ st.1 = "" then (titleR, cand.2) else st
      if 70 < conf then some st2 else runPipeline rest st2

/-! ## Lemmas about the stable sort -/

lemma insertByWeight_perm (w : Word) (l : List Word) :
    List.Perm (insertByWeight w l) (w :: l) := by
  induction l with
  | nil => exact List.Perm.refl _
  | cons x xs ih =>
    simp only [insertByWeight]
    split
    · exact (ih.cons x).trans (List.Perm.swap w x xs)
    · exact List.Perm.refl _

lemma sortWords_perm (ws : List Word) : List.Perm (sortWords ws) ws := by
  induction ws with
  | nil => exact List.Perm.refl _
  | cons w ws ih =>
    exact (insertByWeight_perm w (sortWords ws)).trans (ih.cons w)

lemma mem_insertByWeight {y w : Word} {l : List Word} :
    y ∈ insertByWeight w l ↔ y = w ∨ y ∈ l := by
  simpa using (insertByWeight_perm w l).mem_iff

lemma pairwise_insertByWeight {w : Word} {l : List Word}
    (h : l.Pairwise (fun a b => b.weight ≤ a.weight)) :
    (insertByWeight w l).Pairwise (fun a b => b.weight ≤ a.weight) := by
  induction l with
  | nil => simp [insertByWeight]
  | cons x xs ih =>
    rw [List.pairwise_cons] at h
    simp only [insertByWeight]
    split
    · rename_i hlt
      rw [List.pairwise_cons]
      refine ⟨fun y hy => ?_, ih h.2⟩
      rcases mem_insertByWeight.mp hy with rfl | hy
      · exact le_of_lt hlt
      · exact h.1 y hy
    · rename_i hge
      rw [List.pairwise_cons]
      refine ⟨fun y hy => ?_, List.pairwise_cons.mpr h⟩
      rcases List.mem_cons.mp hy with rfl | hy
      · omega
      · have := h.1 y hy
        omega

lemma pairwise_sortWords (ws : List Word) :
    (sortWords ws).Pairwise (fun a b => b.weight ≤ a.weight) := by
  induction ws with
  | nil => exact List.Pairwise.nil
  | cons w ws ih => exact pairwise_insertByWeight ih

lemma filter_insertByWeight (w : Word) (l : List Word) (k : Int) :
    (insertByWeight w l).filter (fun x => x.weight == k)
      = if w.weight = k
        then w :: l.filter (fun x => x.weight == k)
        else l.filter (fun x => x.weight == k) := by
  induction l with
  | nil =>
    by_cases hw : w.weight = k <;>
      simp [insertByWeight, List.filter_cons, List.filter_nil, hw]
  | cons x xs ih =>
    simp only [insertByWeight]
    split
    · rename_i hlt
      rw [List.filter_cons, ih]
      by_cases hw : w.weight = k
      · have hx : (x.weight == k) = false := by
          simp only [beq_eq_false_iff_ne, ne_eq]
          omega
        simp [hw, hx]
      · simp only [hw, if_neg, not_false_iff, List.filter_cons]
    · rw [List.filter_cons, List.filter_cons]
      by_cases hw : w.weight = k <;> simp [hw]

lemma filter_sortWords (ws : List Word) (k : Int) :
    (sortWords ws).filter (fun x => x.weight == k)
      = ws.filter (fun x => x.weight == k) := by
  induction ws with
  | nil => rfl
  | cons w ws ih =>
    simp only [sortWords, filter_insertByWeight, ih, List.filter_cons]
    by_cases hw : w.weight = k <;> simp [hw]

/-! ## Claim theorems -/

/-- C5: the Word Scorer computes `weight = fontSize * 10`, subtracts exactly 50
when `height > 1400`, subtracts exactly 100 when the word's exact text is in
the fixed denylist (the two penalties stack), and the emphasis flags and the
remaining parsed inputs (here: the confidence) contribute nothing to the
weight. -/
theorem C5_scorer (text : String) (fontSize confidence : Int) (isStrong isEm : Bool)
    (height : Int) (confidence2 : Int) (isStrong2 isEm2 : Bool) :
    scoreWeight text fontSize confidence isStrong isEm height
      = fontSize * 10 - (if 1400 < height then 50 else 0)
        - (if wordStoplist.contains text then 100 else 0)
    ∧ scoreWeight text fontSize confidence isStrong isEm height
      = scoreWeight text fontSize confidence2 isStrong2 isEm2 height := by
  refine ⟨?_, rfl⟩
  simp only [scoreWeight]
  split <;> split <;> omega

/-- C6: line 185 sorts the Word Records by weight in descending order with a
stable sort: the output is a permutation of the input that is non-increasing
in weight, and for every weight value the subsequence of words of that weight
is exactly the input's subsequence — so every pair of equal-weight words keeps
its original document order. -/
theorem C6_stable_sort (ws : List Word) :
    List.Perm (sortWords ws) ws
    ∧ (sortWords ws).Pairwise (fun a b => b.weight ≤ a.weight)
    ∧ ∀ k : Int, (sortWords ws).filter (fun x => x.weight == k)
        = ws.filter (fun x => x.weight == k) :=
  ⟨sortWords_perm ws, pairwise_sortWords ws, filter_sortWords ws⟩

/-! ## Lemmas about the rotation retry loop -/

lemma runController_break (pre : List Candidate) (c : Candidate) (rest : List Candidate)
    (st : String × String)
    (hpre : ∀ d ∈ pre, d.conf ≤ 70) (hc : 70 < c.conf) :
    runController (pre ++ c :: rest) st = ((c.title, c.outPfx), pre.length + 1) := by
  induction pre generalizing st with
  | nil => simp [runController, hc]
  | cons d pre ih =>
    have hd : ¬ 70 < d.conf := not_lt.mpr (hpre d (List.mem_cons_self d pre))
    simp only [List.cons_append, runController, hd, if_neg, not_false_iff, List.append_eq]
    rw [ih _ (fun x hx => hpre x (List.mem_cons_of_mem d hx))]
    simp [Nat.add_comm, Nat.add_assoc]

lemma runController_keep (rest : List Candidate) (st : String × String)
    (hne : st.1 ≠ "") (hrest : ∀ d ∈ rest, d.conf ≤ 70) :
    runController rest st = (st, rest.length) := by
  induction rest generalizing st with
  | nil => rfl
  | cons d tl ih =>
    have hd : ¬ 70 < d.conf := not_lt.mpr (hrest d (List.mem_cons_self d tl))
    simp only [runController, hd, if_neg, not_false_iff, false_or, hne, if_neg]
    rw [ih st hne (fun x hx => hrest x (List.mem_cons_of_mem d hx))]
    simp

lemma runController_all_empty (cs : List Candidate) (st : String × String)
    (hne : cs ≠ []) (hst : st.1 = "")
    (hconf : ∀ d ∈ cs, d.conf ≤ 70) (htitle : ∀ d ∈ cs, d.title = "") :
    runController cs st = (("", (cs.getLast hne).outPfx), cs.length) := by
  induction cs generalizing st with
  | nil => exact absurd rfl hne
  | cons d tl ih =>
    have hd : ¬ 70 < d.conf := not_lt.mpr (hconf d (List.mem_cons_self d tl))
    have hdt : d.title = "" := htitle d (List.mem_cons_self d tl)
    simp only [runController, hd, if_neg, not_false_iff, false_or, hst, if_pos]
    cases tl with
    | nil => simp [runController, hdt, List.getLast]
    | cons e tl2 =>
      rw [ih _ (List.cons_ne_nil e tl2) (by simp [hdt])
        (fun x hx => hconf x (List.mem_cons_of_mem d hx))
        (fun x hx => htitle x (List.mem_cons_of_mem d hx))]
      simp [List.getLast]

/-- C2: whenever the retry loop reaches a candidate whose confidence is
strictly greater than 70, that candidate's `(title, outputPrefix)` becomes the
provisional best and the loop breaks at once: the run's result is that
candidate's pair, and the number of evaluated candidates is its position plus
one, independently of every later candidate. -/
theorem C2_good_enough_halts (pre : List Candidate) (c : Candidate) (rest : List Candidate)
    (hpre : ∀ d ∈ pre, d.conf ≤ 70) (hc : 70 < c.conf) :
    controllerRun (pre ++ c :: rest) = ((c.title, c.outPfx), pre.length + 1) :=
  runController_break pre c rest ("", "") hpre hc

/-- C2 witness: per-candidate confidences `[40, 85, 95, 30]` in angle order
`[0, 180, 90, 270]` — the run stops at the second candidate with its result,
having evaluated exactly two candidates. -/
theorem C2_good_enough_halts_witness :
    controllerRun [⟨0, "T0", 40, "p0"⟩, ⟨180, "T180", 85, "p180"⟩,
        ⟨90, "T90", 95, "p90"⟩, ⟨270, "T270", 30, "p270"⟩]
      = (("T180", "p180"), 2) :=
  C2_good_enough_halts [⟨0, "T0", 40, "p0"⟩] ⟨180, "T180", 85, "p180"⟩
    [⟨90, "T90", 95, "p90"⟩, ⟨270, "T270", 30, "p270"⟩] (by decide) (by decide)

/-- C3: when no candidate is good enough, every candidate is evaluated and the
first candidate with a non-empty title stays the provisional best; later
below-threshold candidates never overwrite it, whatever their confidences and
titles. -/
lemma runController_first_nonempty (pre : List Candidate) (c : Candidate)
    (rest : List Candidate) (st : String × String) (hst : st.1 = "")
    (hpconf : ∀ d ∈ pre, d.conf ≤ 70) (hpre : ∀ d ∈ pre, d.title = "")
    (hcle : c.conf ≤ 70) (hc : c.title ≠ "") (hrest : ∀ d ∈ rest, d.conf ≤ 70) :
    runController (pre ++ c :: rest) st
      = ((c.title, c.outPfx), pre.length + 1 + rest.length) := by
  induction pre generalizing st with
  | nil =>
    have hcn : ¬ 70 < c.conf := not_lt.mpr hcle
    simp only [List.nil_append, runController, hcn, if_neg, not_false_iff, false_or,
      hst, if_pos]
    rw [runController_keep rest (c.title, c.outPfx) hc hrest]
    simp [Nat.add_comm]
  | cons d pre ih =>
    have hdc : ¬ 70 < d.conf := not_lt.mpr (hpconf d (List.mem_cons_self d pre))
    have hdt : d.title = "" := hpre d (List.mem_cons_self d pre)
    simp only [List.cons_append, runController, hdc, if_neg, not_false_iff, false_or,
      hst, if_pos, List.append_eq]
    rw [ih (d.title, d.outPfx) hdt
      (fun x hx => hpconf x (List.mem_cons_of_mem d hx))
      (fun x hx => hpre x (List.mem_cons_of_mem d hx))]
    simp only [List.length_cons, Prod.mk.injEq, and_self, and_true, true_and]
    omega

/-- C3: when no candidate is good enough, every candidate is evaluated and the
first candidate with a non-empty title stays the provisional best; later
below-threshold candidates never overwrite it, whatever their confidences and
titles. -/
theorem C3_first_nonempty_wins (pre : List Candidate) (c : Candidate) (rest : List Candidate)
    (hall : ∀ d ∈ pre ++ c :: rest, d.conf ≤ 70)
    (hpre : ∀ d ∈ pre, d.title = "") (hc : c.title ≠ "") :
    controllerRun (pre ++ c :: rest)
      = ((c.title, c.outPfx), pre.length + 1 + rest.length) :=
  runController_first_nonempty pre c rest ("", "") rfl
    (fun d hd => hall d (by simp [hd])) hpre (hall c (by simp)) hc
    (fun d hd => hall d (by simp [hd]))

/-- C3 witness: below-threshold confidences `[40, 55, 60, 30]`, all titles
non-empty — all four candidates are evaluated and the first one's result is
returned even though later confidences are numerically higher. -/
theorem C3_first_nonempty_wins_witness :
    controllerRun [⟨0, "T0", 40, "p0"⟩, ⟨180, "T180", 55, "p180"⟩,
        ⟨90, "T90", 60, "p90"⟩, ⟨270, "T270", 30, "p270"⟩]
      = (("T0", "p0"), 4) :=
  C3_first_nonempty_wins [] ⟨0, "T0", 40, "p0"⟩
    [⟨180, "T180", 55, "p180"⟩, ⟨90, "T90", 60, "p90"⟩, ⟨270, "T270", 30, "p270"⟩]
    (by decide) (by decide) (by decide)

/-- C10: when no candidate is good enough and every candidate's title is
empty, each candidate in turn overwrites the provisional best, so the run
returns the empty title with the LAST candidate's output prefix, after
evaluating every candidate. -/
theorem C10_all_empty_last_prevails (cs : List Candidate) (hne : cs ≠ [])
    (hconf : ∀ d ∈ cs, d.conf ≤ 70) (htitle : ∀ d ∈ cs, d.title = "") :
    controllerRun cs = (("", (cs.getLast hne).outPfx), cs.length) :=
  runController_all_empty cs ("", "") hne rfl hconf htitle

/-- C10 witness: four below-threshold candidates with empty titles — the run
returns the empty title with the fourth candidate's output prefix, having
evaluated all four. -/
theorem C10_all_empty_last_prevails_witness :
    controllerRun [⟨0, "", 40, "p0"⟩, ⟨180, "", 55, "p180"⟩,
        ⟨90, "", 60, "p90"⟩, ⟨270, "", 30, "p270"⟩]
      = (("", "p270"), 4) :=
  C10_all_empty_last_prevails
    [⟨0, "", 40, "p0"⟩, ⟨180, "", 55, "p180"⟩, ⟨90, "", 60, "p90"⟩, ⟨270, "", 30, "p270"⟩]
    (by decide) (by decide) (by decide)

/-! ## Title synthesis: spec-side walks for C1 and C4 -/

/-- The Title Synthesizer walk as the spec describes it, parameterized by the
length measure used for the 80 cap (`String.length` reads the claim's "80
characters" literally; `goStrLen` is Go's byte length): append the word's text
plus a trailing space when it has a letter-or-digit character and confidence
strictly above 70, and stop at the first point where the measured length of
the title exceeds 80. -/
def specWalk (lenF : String → Nat) : List Word → String → String
  | [], title => title
  | w :: ws, title =>
    let title2 :=
      if (∃ c ∈ w.text.toList, isLetterOrDigit c = true) ∧ 70 < w.confidence
      then title ++ w.text ++ " " else title
    if 80 < lenF title2 then title2 else specWalk lenF ws title2

/-- The claim-side title of C4: the walk with the cap measured in characters,
over the weight-sorted words. -/
def claimTitleC4 (ws : List Word) : String :=
  specWalk String.length (sortWords ws) ""

/-- All confidence samples of a word list: for every word, one copy of its
confidence per letter-or-digit character of its text. -/
def allSamples : List Word → List Int
  | [] => []
  | w :: ws => wordSamples w ++ allSamples ws

/-- The claim-side confidence of C1: the mean over every alphanumeric
character of EVERY parsed word, regardless of where the title-length walk
stops. -/
def claimConfC1 (ws : List Word) : ℚ :=
  avg (allSamples ws)

/-- The words the synthesis loop actually processes before its break: each
word up to and including the first one after whose step the title's byte
length exceeds 80. -/
def processedWords : List Word → String → List Word
  | [], _ => []
  | w :: ws, title =>
    let title2 :=
      if 0 < (w.text.toList.filter isLetterOrDigit).length ∧ 70 < w.confidence
      then title ++ w.text ++ " " else title
    w :: (if 80 < goStrLen title2 then [] else processedWords ws title2)

lemma hasAlnum_iff (s : List Char) :
    0 < (s.filter isLetterOrDigit).length ↔ ∃ c ∈ s, isLetterOrDigit c = true := by
  rw [List.length_pos, ne_eq, List.filter_eq_nil_iff]
  push_neg
  simp

lemma synthLoop_fst (l : List Word) :
    ∀ title confs, (synthLoop l title confs).1 = specWalk goStrLen l title := by
  induction l with
  | nil => intro title confs; rfl
  | cons w ws ih =>
    intro title confs
    simp only [synthLoop, specWalk]
    rw [if_congr (and_congr_left_iff.mpr (fun _ => hasAlnum_iff w.text.toList)) rfl rfl]
    split <;> split <;> first | rfl | exact ih _ _

lemma synthLoop_snd (l : List Word) :
    ∀ title confs, (synthLoop l title confs).2
      = confs ++ allSamples (processedWords l title) := by
  induction l with
  | nil => intro title confs; simp [synthLoop, processedWords, allSamples]
  | cons w ws ih =>
    intro title confs
    simp only [synthLoop, processedWords, allSamples]
    split <;> split <;> simp [allSamples, ih, List.append_assoc]

/-- Two words realizing the 74 example of C1: a 4-letter word with confidence
90 and a 1-letter word with confidence 10. -/
def cw90 : Word := ⟨"abcd", 0, 90, false, false, 0, 0, []⟩

/-- See `cw90`. -/
def cw10 : Word := ⟨"e", 0, 10, false, false, 0, 0, []⟩

/-- A word of 81 letters with confidence 90: appending it pushes the title to
82 bytes, past the 80 cap, so the loop breaks before the next word. -/
def wLong : Word := ⟨String.mk (List.replicate 81 'a'), 0, 90, false, false, 0, 10, []⟩

/-- A 1-letter word with confidence 10 placed after `wLong`. -/
def wAfter : Word := ⟨"b", 0, 10, false, false, 0, 0, []⟩

/-- C1 counterexample: with `wLong` (81 letters, confidence 90) followed by
`wAfter` (1 letter, confidence 10), the loop breaks after `wLong` because the
title reaches 82 bytes, so `wAfter` contributes no confidence sample: the
synthesized confidence is 90, not the claimed all-word mean
`(81*90 + 10)/82 = 3650/41`. -/
theorem C1_counterexample :
    ocrConf [wLong, wAfter] ≠ claimConfC1 [wLong, wAfter]
      ∧ ocrConf [wLong, wAfter] = 90
      ∧ claimConfC1 [wLong, wAfter] = 3650 / 41 := by
  have e1 : ocrConf [wLong, wAfter] = 90 := by
    unfold ocrConf avg
    rw [if_neg (by decide),
      show (synthLoop (sortWords [wLong, wAfter]) "" []).2.sum = (7290 : ℤ) by decide,
      show (synthLoop (sortWords [wLong, wAfter]) "" []).2.length = 81 by decide]
    norm_num
  have e2 : claimConfC1 [wLong, wAfter] = 3650 / 41 := by
    unfold claimConfC1 avg
    rw [if_neg (by decide),
      show (allSamples [wLong, wAfter]).sum = (7300 : ℤ) by decide,
      show (allSamples [wLong, wAfter]).length = 82 by decide]
    norm_num
  refine ⟨?_, e1, e2⟩
  rw [e1, e2]
  norm_num

/-- C1 as amended: the synthesized confidence is the mean over every
alphanumeric character of every word the walk processes BEFORE the 80-byte
title cap stops it (in weight-sorted order); words after the stopping point
contribute no samples, and the result is 0 when no sample was collected
(`avg [] = 0`).  On inputs where the title never exceeds the cap — such as the
claim's own 4-letter/1-letter example, restated as the second conjunct — this
coincides with the claimed all-word per-character mean. -/
theorem C1_amended (ws : List Word) :
    ocrConf ws = avg (allSamples (processedWords (sortWords ws) ""))
      ∧ ocrConf [cw90, cw10] = 74 := by
  constructor
  · unfold ocrConf
    rw [synthLoop_snd (sortWords ws) "" []]
    rfl
  · unfold ocrConf avg
    rw [if_neg (by decide),
      show (synthLoop (sortWords [cw90, cw10]) "" []).2.sum = (370 : ℤ) by decide,
      show (synthLoop (sortWords [cw90, cw10]) "" []).2.length = 5 by decide]
    norm_num

/-- The C4 counterexample input: one ASCII letter followed by 40 two-byte
letters; with the trailing space the appended title is 82 bytes but only 42
characters. -/
def wBytes : Word := ⟨String.mk ('A' :: List.replicate 40 'ö'), 0, 90, false, false, 0, 10, []⟩

/-- A qualifying word placed after `wBytes`. -/
def wNext : Word := ⟨"B", 0, 90, false, false, 0, 0, []⟩

/-- C4 counterexample: after appending `wBytes` the title is 82 UTF-8 bytes
(Go `len`) but only 42 characters, so the code stops while the claim's
80-character reading continues and also appends `wNext`: the two walks
disagree on this input. -/
theorem C4_counterexample :
    ocrTitle [wBytes, wNext] ≠ claimTitleC4 [wBytes, wNext]
      ∧ goStrLen (ocrTitle [wBytes, wNext]) = 82
      ∧ (ocrTitle [wBytes, wNext]).length = 42 := by
  refine ⟨?_, by decide, by decide⟩
  decide

/-- C4 as amended: on the weight-sorted words, a word's text plus a trailing
space is appended exactly when the word has at least one letter-or-digit
character and confidence strictly above 70, and the walk stops at the first
point where the title's length measured in UTF-8 BYTES (Go `len`, not
characters) exceeds 80 — the word pushing it over the cap is included in full
and no later word is processed. -/
theorem C4_amended (ws : List Word) :
    ocrTitle ws = specWalk goStrLen (sortWords ws) "" := by
  unfold ocrTitle
  exact synthLoop_fst (sortWords ws) "" []

/-! ## Parser claims C8 and C9 -/

/-- A word element whose markup omits the `bbox` property entirely: line 167
then evaluates `strings.Split("", " ")[1]`, an index-out-of-range panic. -/
def cwNoBbox : RawWord := ⟨"x_wconf 95", false, false, "Hi"⟩

/-- C8 counterexample: parsing is NOT total over missing fields — a word whose
markup omits `bbox` (here with a perfectly well-formed `x_wconf 95` property
string) makes the parse abort (`none` models the line-167 index panic), contrary
to the claim that no missing field ever aborts parsing. -/
theorem C8_counterexample : parseWord cwNoBbox = none := by decide

/-- C8 as amended: parsing is total over missing or non-numeric `x_fsize` and
`x_wconf` — whenever the property string itself parses and the `bbox` value
splits into at least two space-separated components, the word parses, with
`fontSize` and `confidence` read through `atoiZ`, which yields 0 on a missing
(empty) or non-numeric value; but a missing `bbox`, a `bbox` with no space,
or a property without a value aborts parsing. -/
theorem C8_amended (raw : RawWord) (ps : List (List Char × List Char)) (second : List Char)
    (hp : parseProps raw.titleAttr.toList = some ps)
    (hb : (splitChar ' ' (lookupProp ps ("bbox".toList)))[1]? = some second) :
    parseWord raw = some
      { text := raw.text
        fontSize := atoiZ (lookupProp ps ("x_fsize".toList))
        confidence := atoiZ (lookupProp ps ("x_wconf".toList))
        isStrong := raw.hasStrong
        isEm := raw.hasEm
        height := atoiZ second
        weight := scoreWeight raw.text (atoiZ (lookupProp ps ("x_fsize".toList)))
          (atoiZ (lookupProp ps ("x_wconf".toList))) raw.hasStrong raw.hasEm (atoiZ second)
        props := ps } := by
  unfold parseWord
  rw [hp]
  dsimp only
  rw [hb]

/-- A word element with both `x_fsize` and `x_wconf` missing. -/
def cwDefaults : RawWord := ⟨"bbox 4 8 15 16", false, false, "Hey"⟩

/-- C8 witness: a word whose markup has only a `bbox` parses fine, with
`fontSize = 0` and `confidence = 0`. -/
theorem C8_amended_witness :
    parseWord cwDefaults
      = some ⟨"Hey", 0, 0, false, false, 8, 0, [("bbox".toList, "4 8 15 16".toList)]⟩ :=
  (C8_amended cwDefaults [("bbox".toList, "4 8 15 16".toList)] ("8".toList)
    (by decide) (by decide)).trans (by decide)

/-- Follows the spec's words for C9: the pixel height of a bounding box given
as four space-separated numbers `left top right bottom` is `bottom - top`. -/
def specBboxPixelHeight (bbox : List Char) : Int :=
  let parts := splitChar ' ' bbox
  atoiZ (parts.getD 3 []) - atoiZ (parts.getD 1 [])

/-- A word element with bbox `100 200 300 999`: top coordinate 200, pixel
height 799. -/
def cwBbox : RawWord := ⟨"bbox 100 200 300 999; x_wconf 90; x_fsize 10", false, false, "Word"⟩

/-- C9 counterexample: for bbox `100 200 300 999` the parsed `height` is 200,
the second number (the TOP coordinate), while the box's pixel height in the
spec's sense is `999 - 200 = 799`: the parsed field does not equal the pixel
height of the bounding box. -/
theorem C9_counterexample :
    (parseWord cwBbox).map (fun w => w.height) = some 200
      ∧ specBboxPixelHeight ("100 200 300 999".toList) = 799
      ∧ (200 : Int) ≠ 799 := by
  refine ⟨by decide, by decide, by decide⟩

/-- C9 as amended: the `height` field equals the second of the four
space-separated `bbox` numbers — the bounding box's top coordinate, not its
pixel height. -/
theorem C9_amended (raw : RawWord) (ps : List (List Char × List Char))
    (l t r b : List Char)
    (hp : parseProps raw.titleAttr.toList = some ps)
    (hb : splitChar ' ' (lookupProp ps ("bbox".toList)) = [l, t, r, b]) :
    (parseWord raw).map (fun w => w.height) = some (atoiZ t) := by
  unfold parseWord
  rw [hp]
  dsimp only
  rw [hb]
  rfl

/-- C9 witness: the amended statement evaluated on `cwBbox`, whose bbox is
`100 200 300 999` — the parsed height is the second number, 200. -/
theorem C9_amended_witness : (parseWord cwBbox).map (fun w => w.height) = some 200 :=
  (C9_amended cwBbox
    [("bbox".toList, "100 200 300 999".toList), ("x_wconf".toList, "90".toList),
      ("x_fsize".toList, "10".toList)]
    ("100".toList) ("200".toList) ("300".toList) ("999".toList)
    (by decide) (by decide)).trans (by decide)

/-! ## C7: parse failure vs scope absence in the retry loop -/

/-- A candidate whose single word element carries the property string `bbox`
with no value: its parse panics. -/
def badCand : List RawWord × String := ([⟨"bbox", false, false, "Oops"⟩], "pBad")

/-- A candidate that parses fine, with confidence 95. -/
def goodCand : List RawWord × String :=
  ([⟨"bbox 0 0 9 9; x_wconf 95; x_fsize 3", false, false, "Fine"⟩], "pGood")

lemma runPipeline_abort (pre : List (List RawWord × String))
    (bad : List RawWord × String) (rest : List (List RawWord × String))
    (st : String × String)
    (hpre : ∀ c ∈ pre, ∃ ws, parseWords c.1 = some ws ∧ ocrConf ws ≤ 70)
    (hbad : parseWords bad.1 = none) :
    runPipeline (pre ++ bad :: rest) st = none := by
  induction pre generalizing st with
  | nil => simp only [List.nil_append, runPipeline, hbad]
  | cons c pre ih =>
    obtain ⟨ws, hws, hle⟩ := hpre c (List.mem_cons_self c pre)
    have hn : ¬ 70 < ocrConf ws := not_lt.mpr hle
    simp only [List.cons_append, runPipeline, hws]
    rw [if_neg hn]
    exact ih _ (fun x hx => hpre x (List.mem_cons_of_mem c hx))

lemma runPipeline_empty_markup (pfx : String) (cs : List (List RawWord × String))
    (title bp : String) :
    runPipeline (([] , pfx) :: cs) (title, bp)
      = runPipeline cs (if title = "" then ("", pfx) else (title, bp)) := by
  have h0 : ¬ (70 : ℚ) < ocrConf [] := by
    rw [show ocrConf [] = 0 from rfl]
    norm_num
  simp only [runPipeline, show parseWords ([] : List RawWord) = some [] from rfl]
  rw [if_neg h0]
  by_cases ht : title = "" <;> simp [ht, h0, show ocrTitle [] = "" from rfl]

/-- C7 counterexample: a run whose first candidate has a malformed word
property aborts outright (`none`, the Go panic), even though the second
candidate parses — contradicting the claim that a candidate that cannot be
parsed is treated as a zero-confidence result, with the whole document failing
only if no candidate parses. -/
theorem C7_counterexample :
    runPipeline [badCand, goodCand] ("", "") = none
      ∧ (parseWords goodCand.1).isSome = true := by
  constructor
  · simp only [runPipeline, show parseWords badCand.1 = none from by decide]
  · decide

/-- C7 as amended: a candidate whose first-page scope is absent or empty (an
empty word selection) yields a zero-confidence empty result and the controller
moves on to the next angle (second conjunct); but a candidate whose markup has
a malformed word property aborts the whole document at that candidate, no
matter how many later candidates would parse (first conjunct). -/
theorem C7_amended (pre : List (List RawWord × String))
    (bad : List RawWord × String) (rest : List (List RawWord × String))
    (st : String × String)
    (hpre : ∀ c ∈ pre, ∃ ws, parseWords c.1 = some ws ∧ ocrConf ws ≤ 70)
    (hbad : parseWords bad.1 = none) :
    runPipeline (pre ++ bad :: rest) st = none
      ∧ ∀ (pfx : String) (cs : List (List RawWord × String)) (title bp : String),
          runPipeline (([] , pfx) :: cs) (title, bp)
            = runPipeline cs (if title = "" then ("", pfx) else (title, bp)) :=
  ⟨runPipeline_abort pre bad rest st hpre hbad,
    fun pfx cs title bp => runPipeline_empty_markup pfx cs title bp⟩

/-- C7 witness: a run over an empty-markup candidate, then the malformed
candidate, then a parsing one, aborts with `none`. -/
theorem C7_amended_witness :
    runPipeline [([] , "p0"), badCand, goodCand] ("", "") = none :=
  (C7_amended [([] , "p0")] badCand [goodCand] ("", "")
    (by
      intro c hc
      rw [List.mem_singleton] at hc
      subst hc
      refine ⟨[], rfl, ?_⟩
      rw [show ocrConf [] = 0 from rfl]
      norm_num)
    (by decide)).1

end Docsheep
